import Mathlib

/-
Verification of the forex_system strategy evaluation engine
(fxst24/forex_system, file forex_system.py).

Series are embedded positionally: a pandas Series over the bar index
becomes a `List ℚ` (prices, returns) or `List ℤ` (signals), position
`i` standing for the i-th bar.  IEEE-754 non-finite values (NaN and
±infinity) are collapsed into `none` of `Option ℚ`: every arithmetic
operation of the source propagates NaN, comparisons against NaN are
false, and the code paths under study replace both NaN and ±infinity
by 0, so the collapse is observationally faithful for the functions
embedded here.  Division by zero (the source of ±infinity / NaN in
`calc_ret`) is mapped to `none`.
-/

namespace FS

/-- `EPS = 1.0e-5` from forex_system.py line 31. -/
def EPS : ℚ := 1 / 100000

/-- Float addition; `none` is a non-finite value (NaN propagates). -/
def fadd : Option ℚ → Option ℚ → Option ℚ
  | some a, some b => some (a + b)
  | _, _ => none

/-- Float subtraction with NaN propagation. -/
def fsub : Option ℚ → Option ℚ → Option ℚ
  | some a, some b => some (a - b)
  | _, _ => none

/-- Float multiplication with NaN propagation (note `0 * NaN = NaN`,
matching IEEE-754, which is what makes the bar-0 cost of `calc_ret`
non-finite). -/
def fmul : Option ℚ → Option ℚ → Option ℚ
  | some a, some b => some (a * b)
  | _, _ => none

/-- Float division: division by zero yields a non-finite value
(±infinity or NaN), collapsed to `none`; NaN propagates. -/
def fdiv : Option ℚ → Option ℚ → Option ℚ
  | some a, some b => if b = 0 then none else some (a / b)
  | _, _ => none

/-- Comparison `a > b`: false when either side is NaN (IEEE-754). -/
def fgt : Option ℚ → Option ℚ → Bool
  | some a, some b => decide (b < a)
  | _, _ => false

/-- Comparison `a < b`: false when either side is NaN (IEEE-754). -/
def flt : Option ℚ → Option ℚ → Bool
  | some a, some b => decide (a < b)
  | _, _ => false

/-- A pandas boolean mask entry upcast to float (False → 0.0, True → 1.0). -/
def boolF (b : Bool) : Option ℚ := some (if b then 1 else 0)

/-- Python `int(x)` / numpy `astype(int)`: truncation toward zero. -/
def intTrunc (q : ℚ) : ℤ := if q < 0 then -⌊-q⌋ else ⌊q⌋

/-- Signal series value at bar `i` (out of range = NaN). -/
def sigAt (S : List ℤ) (i : ℕ) : Option ℚ := (S[i]?).map (fun z => (z : ℚ))

/-- `signal.shift(1)` at bar `i`: the previous bar's value, NaN at bar 0. -/
def sigPrev (S : List ℤ) (i : ℕ) : Option ℚ :=
  if i = 0 then none else sigAt S (i - 1)

/-- Open-price series value at bar `i` (out of range = NaN). -/
def opAt (op : List ℚ) (i : ℕ) : Option ℚ := op[i]?

/-- `op.shift(-1)` at bar `i`: the next bar's open, NaN at the last bar. -/
def opNext (op : List ℚ) (i : ℕ) : Option ℚ := op[i + 1]?

/-- The mask `(signal > 0) & (signal > signal.shift(1))` at bar `i`
(forex_system.py line 346). -/
def maskLong (S : List ℤ) (i : ℕ) : Bool :=
  fgt (sigAt S i) (some 0) && fgt (sigAt S i) (sigPrev S i)

/-- The mask `(signal < 0) & (signal < signal.shift(1))` at bar `i`
(forex_system.py line 348). -/
def maskShort (S : List ℤ) (i : ℕ) : Bool :=
  flt (sigAt S i) (some 0) && flt (sigAt S i) (sigPrev S i)

/-- The cost series of `calc_ret` (lines 346-350):
`spread * mask_long * (signal - signal.shift(1))
 + spread * mask_short * (signal.shift(1) - signal)`.
At bar 0 the shifted signal is NaN, so the whole entry is NaN. -/
def cost (S : List ℤ) (c : ℚ) (i : ℕ) : Option ℚ :=
  fadd
    (fmul (fmul (some c) (boolF (maskLong S i))) (fsub (sigAt S i) (sigPrev S i)))
    (fmul (fmul (some c) (boolF (maskShort S i))) (fsub (sigPrev S i) (sigAt S i)))

/-- The raw return `((op.shift(-1) - op) * signal - cost) / op` at bar `i`
(line 353), before the NaN / ±infinity replacement. -/
def rawRet (S : List ℤ) (op : List ℚ) (c : ℚ) (i : ℕ) : Option ℚ :=
  fdiv (fsub (fmul (fsub (opNext op i) (opAt op i)) (sigAt S i)) (cost S c i))
    (opAt op i)

/-- Positions selected by the inclusive label slice `[start:end]` of a
series of length `n` (pandas label slicing includes both endpoints). -/
def sliceIdx (n start endB : ℕ) : List ℕ :=
  (List.range n).filter (fun i => start ≤ i && i ≤ endB)

/-- `ForexSystem.calc_ret` (lines 330-358): compute the raw return,
replace NaN (`fillna(0.0)`) and ±infinity by 0, truncate to `[start, end]`. -/
def calcRet (S : List ℤ) (op : List ℚ) (c : ℚ) (start endB : ℕ) : List ℚ :=
  (sliceIdx (max S.length op.length) start endB).map
    (fun i => (rawRet S op c i).getD 0)

/-- Modelled from the spec's words for claim C1: the cost
`cost_t = c * (S_t - S_{t-1})` when extending long,
`c * (S_{t-1} - S_t)` when extending short, and 0 otherwise
(in particular 0 at bar 0, where no previous bar exists). -/
def costSpec (S : List ℤ) (c : ℚ) (i : ℕ) : ℚ :=
  if i = 0 then 0
  else if 0 < S.getD i 0 ∧ S.getD (i - 1) 0 < S.getD i 0 then
    c * ((S.getD i 0 : ℚ) - (S.getD (i - 1) 0 : ℚ))
  else if S.getD i 0 < 0 ∧ S.getD i 0 < S.getD (i - 1) 0 then
    c * ((S.getD (i - 1) 0 : ℚ) - (S.getD i 0 : ℚ))
  else 0

/-- Modelled from the spec's words for claim C1: the return
`ret_t = ((open_{t+1} - open_t) * signal_t - cost_t) / open_t`, with
every non-finite entry (no next open, or `open_t = 0`) replaced by 0. -/
def retSpec (S : List ℤ) (op : List ℚ) (c : ℚ) (i : ℕ) : ℚ :=
  if i + 1 < op.length ∧ op.getD i 0 ≠ 0 then
    ((op.getD (i + 1) 0 - op.getD i 0) * (S.getD i 0 : ℚ) - costSpec S c i) /
      op.getD i 0
  else 0

/-- Claim C1's description of `calc_ret`, taken literally. -/
def calcRetSpec (S : List ℤ) (op : List ℚ) (c : ℚ) (start endB : ℕ) : List ℚ :=
  (sliceIdx (max S.length op.length) start endB).map (retSpec S op c)

/-- The amended description: as `calcRetSpec`, except that the entry at
bar 0 of the underlying series is always 0 (its cost term is NaN, the
shifted signal being undefined there, so the whole entry is zeroed). -/
def retSpecAmended (S : List ℤ) (op : List ℚ) (c : ℚ) (i : ℕ) : ℚ :=
  if i = 0 then 0 else retSpec S op c i

/-- Claim C1's description of `calc_ret`, amended at bar 0. -/
def calcRetSpecAmended (S : List ℤ) (op : List ℚ) (c : ℚ) (start endB : ℕ) :
    List ℚ :=
  (sliceIdx (max S.length op.length) start endB).map (retSpecAmended S op c)

lemma fsub_none_right (a : Option ℚ) : fsub a none = none := by
  cases a <;> rfl

lemma fsub_none_left (b : Option ℚ) : fsub none b = none := by
  cases b <;> rfl

lemma fmul_none_right (a : Option ℚ) : fmul a none = none := by
  cases a <;> rfl

lemma fmul_none_left (b : Option ℚ) : fmul none b = none := by
  cases b <;> rfl

lemma fdiv_none_left (b : Option ℚ) : fdiv none b = none := by
  cases b <;> rfl

lemma cost_zero_eq_none (S : List ℤ) (c : ℚ) : cost S c 0 = none := by
  simp [cost, sigPrev, fsub_none_right, fmul_none_right, fadd]

/-- At bar 0 the raw return is NaN (the cost term is NaN). -/
lemma rawRet_zero (S : List ℤ) (op : List ℚ) (c : ℚ) :
    rawRet S op c 0 = none := by
  simp [rawRet, cost_zero_eq_none, fsub_none_right, fdiv_none_left]

/-- Away from bar 0, the cost series of `calc_ret` is finite and matches
the spec's piecewise formula. -/
lemma cost_eq_costSpec (S : List ℤ) (c : ℚ) (i : ℕ) (h1 : i ≠ 0)
    (h2 : i < S.length) :
    cost S c i = some (costSpec S c i) := by
  have h2' : i - 1 < S.length := lt_of_le_of_lt (Nat.sub_le i 1) h2
  have hga : S.getD i 0 = S[i] := List.getD_eq_getElem S 0 h2
  have hgb : S.getD (i - 1) 0 = S[i - 1] := List.getD_eq_getElem S 0 h2'
  have ha : sigAt S i = some ((S[i] : ℤ) : ℚ) := by
    simp [sigAt, List.getElem?_eq_getElem h2]
  have hb : sigPrev S i = some ((S[i - 1] : ℤ) : ℚ) := by
    simp [sigPrev, h1, sigAt, List.getElem?_eq_getElem h2']
  simp only [cost, costSpec, if_neg h1, hga, hgb, maskLong, maskShort, fgt, flt,
    ha, hb, boolF, fmul, fsub, fadd, Bool.and_eq_true, decide_eq_true_eq,
    Int.cast_pos, Int.cast_lt]
  by_cases hL : (0 : ℤ) < S[i] ∧ S[i - 1] < S[i]
  · have hS : ¬((S[i] : ℤ) < 0 ∧ S[i] < S[i - 1]) := by
      rintro ⟨h', -⟩
      exact absurd hL.1 (not_lt.mpr h'.le)
    simp only [if_pos hL, if_neg hS]
    norm_num
    intro h h'
    exact ((lt_irrefl (0 : ℤ)) (lt_trans hL.1 h)).elim
  · by_cases hS : (S[i] : ℤ) < 0 ∧ S[i] < S[i - 1]
    · simp only [if_neg hL, if_pos hS]
      norm_num
      intro h
      exact ((not_le.mpr hS.2) (h hS.1)).elim
    · simp only [if_neg hL, if_neg hS]
      norm_num
      intro h h'
      exact (hS ⟨h, h'⟩).elim

/-- Pointwise form of the amended claim: the filled return at bar `i`
equals the spec formula, with bar 0 zeroed. -/
lemma rawRet_filled (S : List ℤ) (op : List ℚ) (c : ℚ)
    (hlen : S.length = op.length) (i : ℕ) (hi : i < op.length) :
    (rawRet S op c i).getD 0 = retSpecAmended S op c i := by
  rcases Nat.eq_zero_or_pos i with h0 | hpos
  · subst h0
    simp [rawRet_zero, retSpecAmended]
  · have h1 : i ≠ 0 := Nat.pos_iff_ne_zero.mp hpos
    have hiS : i < S.length := hlen ▸ hi
    have hcost := cost_eq_costSpec S c i h1 hiS
    have ha : sigAt S i = some ((S.getD i 0 : ℤ) : ℚ) := by
      simp [sigAt, List.getElem?_eq_getElem hiS, List.getD_eq_getElem S 0 hiS]
    have hop : opAt op i = some (op.getD i 0) := by
      simp [opAt, List.getElem?_eq_getElem hi, List.getD_eq_getElem op 0 hi]
    rw [retSpecAmended, if_neg h1, rawRet, hcost, ha, hop, retSpec]
    by_cases hnext : i + 1 < op.length
    · have hop1 : opNext op i = some (op.getD (i + 1) 0) := by
        simp [opNext, List.getElem?_eq_getElem hnext,
          List.getD_eq_getElem op 0 hnext]
      rw [hop1]
      simp only [fsub, fmul, fdiv]
      split_ifs with hz hA hB
      · exact absurd hz hA.2
      · rfl
      · rfl
      · exact absurd ⟨hnext, hz⟩ hB
    · have hop1 : opNext op i = none := by
        simp [opNext, List.getElem?_eq_none (Nat.le_of_not_lt hnext)]
      rw [hop1, fsub_none_left, fmul_none_left, fsub_none_left, fdiv_none_left]
      simp [hnext]

/-- C1 (corrected): `calc_ret` agrees with the spec's formula
`ret_t = ((open_{t+1} - open_t) * signal_t - cost_t) / open_t` — cost
charged only on position-increasing bars, non-finite entries replaced
by 0, output truncated to `[start, end]` — at every bar except bar 0 of
the underlying series, whose entry is always 0 because its cost term is
NaN (the shifted signal does not exist there). -/
theorem calcRet_matches_spec_amended (S : List ℤ) (op : List ℚ) (c : ℚ)
    (start endB : ℕ) (hlen : S.length = op.length) (_hc : 0 ≤ c) :
    calcRet S op c start endB = calcRetSpecAmended S op c start endB := by
  unfold calcRet calcRetSpecAmended
  apply List.map_congr_left
  intro i hi
  have hmem : i ∈ List.range (max S.length op.length) :=
    List.mem_of_mem_filter hi
  have hilt : i < op.length := by
    have := List.mem_range.mp hmem
    rwa [hlen, max_self] at this
  exact rawRet_filled S op c hlen i hilt

/-- Witness for C1's amended theorem at a concrete input. -/
theorem calcRet_matches_spec_amended_witness :
    ([0, 1, 2, 1, -1] : List ℤ).length = ([1, 2, 3, 0, 5] : List ℚ).length ∧
      (0 : ℚ) ≤ 1 / 2 ∧
      calcRet [0, 1, 2, 1, -1] [1, 2, 3, 0, 5] (1 / 2) 0 4 =
        calcRetSpecAmended [0, 1, 2, 1, -1] [1, 2, 3, 0, 5] (1 / 2) 0 4 :=
  ⟨by decide, by norm_num,
    calcRet_matches_spec_amended [0, 1, 2, 1, -1] [1, 2, 3, 0, 5] (1 / 2) 0 4
      (by decide) (by norm_num)⟩

/-- Counterexample to C1 as stated: on the window starting at the very
first bar, `calc_ret` zeroes bar 0 (its cost term is NaN) while the
claim's formula gives `((2 - 1) * 1 - 0) / 1 = 1` there. -/
theorem calcRet_claim_counterexample :
    calcRet [1, 1] [1, 2] 0 0 1 ≠ calcRetSpec [1, 1] [1, 2] 0 0 1 := by
  have h1 : calcRet [1, 1] [1, 2] 0 0 1 = [0, 0] := rfl
  have hs : sliceIdx (max ([1, 1] : List ℤ).length ([1, 2] : List ℚ).length)
      0 1 = [0, 1] := rfl
  have h2 : calcRetSpec [1, 1] [1, 2] 0 0 1 = [1, 0] := by
    rw [calcRetSpec, hs]
    norm_num [retSpec, costSpec, List.getD_cons_zero, List.getD_cons_succ]
  rw [h1, h2]
  norm_num

/-- Python `int()` / numpy `astype(int)` truncation of an integer-valued
rational is that integer. -/
lemma intTrunc_intCast (k : ℤ) : intTrunc (k : ℚ) = k := by
  unfold intTrunc
  split_ifs with h
  · rw [← Int.cast_neg, Int.floor_intCast]
    ring
  · exact Int.floor_intCast k

/-- Per-bar turnover of `calc_trades` (lines 394-398), before
`fillna(0)` and `astype(int)`:
`mask_long * (signal - signal.shift(1)) + mask_short * (signal.shift(1) - signal)`. -/
def tradeRaw (S : List ℤ) (i : ℕ) : Option ℚ :=
  fadd (fmul (boolF (maskLong S i)) (fsub (sigAt S i) (sigPrev S i)))
    (fmul (boolF (maskShort S i)) (fsub (sigPrev S i) (sigAt S i)))

/-- Per-bar turnover after `fillna(0)` and `astype(int)` (lines 399-400). -/
def tradeInt (S : List ℤ) (i : ℕ) : ℤ := intTrunc ((tradeRaw S i).getD 0)

/-- `ForexSystem.calc_trades` (lines 384-403): the per-bar turnover,
filled, cast to int, truncated to `[start, end]`, summed. -/
def calcTrades (S : List ℤ) (start endB : ℕ) : ℤ :=
  ((sliceIdx S.length start endB).map (tradeInt S)).sum

/-- Sum of a float series with NaN propagation. -/
def fsum (l : List (Option ℚ)) : Option ℚ := l.foldl fadd (some 0)

/-- The turnover magnitude as an integer, written directly: `ΔS` on a
long add, `-ΔS` on a short add, 0 otherwise (and 0 at bar 0). -/
def tradeSpecInt (S : List ℤ) (i : ℕ) : ℤ :=
  if i = 0 then 0
  else if 0 < S.getD i 0 ∧ S.getD (i - 1) 0 < S.getD i 0 then
    S.getD i 0 - S.getD (i - 1) 0
  else if S.getD i 0 < 0 ∧ S.getD i 0 < S.getD (i - 1) 0 then
    S.getD (i - 1) 0 - S.getD i 0
  else 0

lemma tradeRaw_zero (S : List ℤ) : tradeRaw S 0 = none := by
  simp [tradeRaw, sigPrev, fsub_none_right, fmul_none_right, fadd]

lemma tradeInt_zero (S : List ℤ) : tradeInt S 0 = 0 := by
  rw [tradeInt, tradeRaw_zero]
  simpa using intTrunc_intCast 0

lemma tradeRaw_eq (S : List ℤ) (i : ℕ) (h1 : i ≠ 0) (h2 : i < S.length) :
    tradeRaw S i = some ((tradeSpecInt S i : ℤ) : ℚ) := by
  have h2' : i - 1 < S.length := lt_of_le_of_lt (Nat.sub_le i 1) h2
  have hga : S.getD i 0 = S[i] := List.getD_eq_getElem S 0 h2
  have hgb : S.getD (i - 1) 0 = S[i - 1] := List.getD_eq_getElem S 0 h2'
  have ha : sigAt S i = some ((S[i] : ℤ) : ℚ) := by
    simp [sigAt, List.getElem?_eq_getElem h2]
  have hb : sigPrev S i = some ((S[i - 1] : ℤ) : ℚ) := by
    simp [sigPrev, h1, sigAt, List.getElem?_eq_getElem h2']
  simp only [tradeRaw, tradeSpecInt, if_neg h1, hga, hgb, maskLong, maskShort,
    fgt, flt, ha, hb, boolF, fmul, fsub, fadd, Bool.and_eq_true,
    decide_eq_true_eq, Int.cast_pos, Int.cast_lt]
  by_cases hL : (0 : ℤ) < S[i] ∧ S[i - 1] < S[i]
  · have hS : ¬((S[i] : ℤ) < 0 ∧ S[i] < S[i - 1]) := by
      rintro ⟨h', -⟩
      exact absurd hL.1 (not_lt.mpr h'.le)
    simp only [if_pos hL, if_neg hS]
    push_cast
    norm_num
    intro h h'
    exact ((lt_irrefl (0 : ℤ)) (lt_trans hL.1 h)).elim
  · by_cases hS : (S[i] : ℤ) < 0 ∧ S[i] < S[i - 1]
    · simp only [if_neg hL, if_pos hS]
      push_cast
      norm_num
      intro h
      exact ((not_le.mpr hS.2) (h hS.1)).elim
    · simp only [if_neg hL, if_neg hS]
      push_cast
      norm_num
      intro h h'
      exact (hS ⟨h, h'⟩).elim

lemma tradeSpecInt_nonneg (S : List ℤ) (i : ℕ) : 0 ≤ tradeSpecInt S i := by
  unfold tradeSpecInt
  split_ifs with h0 hL hS
  · exact le_refl 0
  · omega
  · omega
  · exact le_refl 0

lemma tradeInt_eq (S : List ℤ) (i : ℕ) (h1 : i ≠ 0) (h2 : i < S.length) :
    tradeInt S i = tradeSpecInt S i := by
  rw [tradeInt, tradeRaw_eq S i h1 h2, Option.getD_some, intTrunc_intCast]

lemma costSpec_eq_mul (S : List ℤ) (c : ℚ) (i : ℕ) :
    costSpec S c i = c * (tradeSpecInt S i : ℚ) := by
  unfold costSpec tradeSpecInt
  split_ifs with h0 hL hS
  · ring
  · push_cast
    ring
  · push_cast
    ring
  · ring

lemma fsum_map_some (g : ℕ → Option ℚ) (f : ℕ → ℚ) :
    ∀ (l : List ℕ) (a : ℚ), (∀ i ∈ l, g i = some (f i)) →
      (l.map g).foldl fadd (some a) = some (a + (l.map f).sum) := by
  intro l
  induction l with
  | nil =>
    intro a _
    simp [fadd]
  | cons x xs ih =>
    intro a h
    have hx : g x = some (f x) := h x (List.mem_cons_self x xs)
    have hxs : ∀ i ∈ xs, g i = some (f i) := fun i hi =>
      h i (List.mem_cons_of_mem x hi)
    simp only [List.map_cons, List.foldl_cons, hx, fadd]
    rw [ih (a + f x) hxs, List.sum_cons]
    ring_nf

/-- C2 (corrected): on every window that starts after bar 0, each cost
term inside `calc_ret` equals the spread times the per-bar turnover
counted by `calc_trades`, the cost is never negative, and the total
cost over the window equals `c * calc_trades(S, start, end)`.  (At bar
0 itself the cost term is NaN while `calc_trades` counts 0 there, so
the per-bar identity fails on windows containing bar 0.) -/
theorem cost_matches_trades_amended (S : List ℤ) (c : ℚ) (start endB : ℕ)
    (hc : 0 ≤ c) (hstart : 1 ≤ start) :
    (∀ i ∈ sliceIdx S.length start endB,
        cost S c i = some (c * (tradeInt S i : ℚ)) ∧
          0 ≤ c * (tradeInt S i : ℚ)) ∧
      fsum ((sliceIdx S.length start endB).map (cost S c)) =
        some (c * (calcTrades S start endB : ℚ)) := by
  have hmem : ∀ i ∈ sliceIdx S.length start endB, i ≠ 0 ∧ i < S.length := by
    intro i hi
    have h1 := List.mem_filter.mp hi
    have h2 := List.mem_range.mp h1.1
    have h3 := h1.2
    simp only [Bool.and_eq_true, decide_eq_true_eq] at h3
    exact ⟨by omega, h2⟩
  have hpt : ∀ i ∈ sliceIdx S.length start endB,
      cost S c i = some (c * (tradeInt S i : ℚ)) := by
    intro i hi
    obtain ⟨h1, h2⟩ := hmem i hi
    rw [cost_eq_costSpec S c i h1 h2, costSpec_eq_mul, tradeInt_eq S i h1 h2]
  constructor
  · intro i hi
    refine ⟨hpt i hi, ?_⟩
    obtain ⟨h1, h2⟩ := hmem i hi
    have hnn := tradeSpecInt_nonneg S i
    rw [tradeInt_eq S i h1 h2]
    exact mul_nonneg hc (by exact_mod_cast hnn)
  · rw [fsum, fsum_map_some (cost S c) (fun i => c * (tradeInt S i : ℚ))
      (sliceIdx S.length start endB) 0 hpt]
    rw [calcTrades]
    congr 1
    push_cast
    rw [zero_add, List.sum_map_mul_left, List.map_map]
    rfl

/-- Witness for C2's amended theorem at a concrete input. -/
theorem cost_matches_trades_amended_witness :
    (0 : ℚ) ≤ 1 / 2 ∧ 1 ≤ 1 ∧
      ((∀ i ∈ sliceIdx ([0, 1, 2, 1, -1] : List ℤ).length 1 4,
          cost [0, 1, 2, 1, -1] (1 / 2) i =
            some ((1 / 2 : ℚ) * (tradeInt [0, 1, 2, 1, -1] i : ℚ)) ∧
            0 ≤ (1 / 2 : ℚ) * (tradeInt [0, 1, 2, 1, -1] i : ℚ)) ∧
        fsum ((sliceIdx ([0, 1, 2, 1, -1] : List ℤ).length 1 4).map
            (cost [0, 1, 2, 1, -1] (1 / 2))) =
          some ((1 / 2 : ℚ) * (calcTrades [0, 1, 2, 1, -1] 1 4 : ℚ))) :=
  ⟨by norm_num, le_refl 1,
    cost_matches_trades_amended [0, 1, 2, 1, -1] (1 / 2) 1 4 (by norm_num)
      (le_refl 1)⟩

/-- Counterexample to C2 as stated: on a window containing bar 0, the
bar-0 cost term inside `calc_ret` is NaN (the shifted signal is
undefined), while `calc_trades` counts a turnover of 0 there, so the
per-bar identity `cost_t = c * turnover_t` fails at bar 0. -/
theorem cost_trades_claim_counterexample :
    ¬ ((∀ i ∈ sliceIdx ([0] : List ℤ).length 0 0,
          cost [0] 0 i = some ((0 : ℚ) * (tradeInt [0] i : ℚ)) ∧
            0 ≤ (0 : ℚ) * (tradeInt [0] i : ℚ)) ∧
        fsum ((sliceIdx ([0] : List ℤ).length 0 0).map (cost [0] 0)) =
          some ((0 : ℚ) * (calcTrades [0] 0 0 : ℚ))) := by
  rintro ⟨h, -⟩
  have h0 := (h 0 (by decide)).1
  rw [cost_zero_eq_none] at h0
  exact Option.noConfusion h0

/-- `(ret + 1.0).cumprod()`: running product of `1 + ret_i`
(forex_system.py line 225 / 268). -/
def cumProdAux (acc : ℚ) : List ℚ → List ℚ
  | [] => []
  | x :: xs => (acc * (1 + x)) :: cumProdAux (acc * (1 + x)) xs

/-- Cumulative wealth `W_t = prod_{i<=t}(1 + ret_i) - 1`
(`cum_ret = (ret + 1.0).cumprod() - 1.0`). -/
def cumRet (ret : List ℚ) : List ℚ := (cumProdAux 1 ret).map (fun w => w - 1)

/-- The drawdown pass of `calc_drawdowns` / `calc_durations`
(lines 234-246 / 278-290): high-water mark
`hwm_i = if hwm_{i-1} >= W_i then hwm_{i-1} else W_i`, drawdown
`D_i = if |1 + W_i| < EPS then D_{i-1} else (1 + hwm_i) / (1 + W_i) - 1`
(at `i = 0` the numpy fallback `drawdown[-1]` reads the still-zero
array, hence the initial `prevDD = 0`). -/
def ddAux (hwm prevDD : ℚ) : List ℚ → List ℚ
  | [] => []
  | w :: ws =>
    (if |1 + w| < EPS then prevDD
     else (1 + (if w ≤ hwm then hwm else w)) / (1 + w) - 1) ::
      ddAux (if w ≤ hwm then hwm else w)
        (if |1 + w| < EPS then prevDD
         else (1 + (if w ≤ hwm then hwm else w)) / (1 + w) - 1) ws

/-- The drawdown series: `hwm_0 = W_0` (line 236). -/
def ddList (ws : List ℚ) : List ℚ :=
  match ws with
  | [] => []
  | w :: _ => ddAux w 0 ws

/-- Running maximum started at `a` (the `for` loops at lines 247-252 /
299-304 initialise with element 0 and fold `max`). -/
def listMax (a : ℚ) (l : List ℚ) : ℚ := l.foldl max a

/-- `ForexSystem.calc_drawdowns` (lines 216-256).  The source raises on
an empty series (`drawdowns` is never assigned); the model returns 0
there and the claims only concern non-empty series. -/
def calcDrawdowns (ret : List ℚ) : ℚ :=
  match ddList (cumRet ret) with
  | [] => 0
  | d :: ds => listMax d ds

/-- The duration pass of `calc_durations` (lines 291-298): for `i >= 1`,
`duration_i = 0` when `D_i = 0` and `duration_{i-1} + 1` otherwise. -/
def durAux (prev : ℚ) : List ℚ → List ℚ
  | [] => []
  | d :: ds => (if d = 0 then 0 else prev + 1) ::
      durAux (if d = 0 then 0 else prev + 1) ds

/-- The duration series: `duration[0] = drawdown[0]` (line 293). -/
def durList (dds : List ℚ) : List ℚ :=
  match dds with
  | [] => []
  | d :: rest => d :: durAux d rest

/-- `ForexSystem.calc_durations` (lines 258-309):
`int(max_duration / (1440 / timeframe))`. -/
def calcDurations (ret : List ℚ) (tf : ℚ) : ℤ :=
  match durList (ddList (cumRet ret)) with
  | [] => 0
  | d :: ds => intTrunc (listMax d ds / (1440 / tf))

/-- Modelled from the spec's words for claim C4: a run counter that
increments while `D_t > 0` and resets to 0 when `D_t = 0`. -/
def durSpecAux (prev : ℚ) : List ℚ → List ℚ
  | [] => []
  | d :: ds => (if 0 < d then prev + 1 else 0) ::
      durSpecAux (if 0 < d then prev + 1 else 0) ds

/-- Modelled from the spec's words for claim C4: the longest run of the
`D_t > 0` counter, divided by `1440 / timeframe` (no truncation is
mentioned by the claim). -/
def calcDurationsSpec (ret : List ℚ) (tf : ℚ) : ℚ :=
  match durSpecAux 0 (ddList (cumRet ret)) with
  | [] => 0
  | d :: ds => listMax d ds / (1440 / tf)

/-- The drawdown at the first bar is always 0: the high-water mark
starts at `W_0`, so `(1 + W_0)/(1 + W_0) - 1 = 0`, and in the
`|1 + W_0| < EPS` branch the zero-initialised array is read. -/
lemma ddAux_head_zero (w : ℚ) (ws : List ℚ) :
    ddAux w 0 (w :: ws) = 0 :: ddAux w 0 ws := by
  rw [ddAux]
  have hh : (if w ≤ w then w else w) = w := by
    split_ifs <;> rfl
  rw [hh]
  by_cases he : |1 + w| < EPS
  · rw [if_pos he]
  · rw [if_neg he]
    have hne : (1 : ℚ) + w ≠ 0 := by
      intro h0
      rw [h0] at he
      exact he (by norm_num [EPS])
    rw [div_self hne]
    norm_num

lemma le_listMax_init (a : ℚ) (l : List ℚ) : a ≤ listMax a l := by
  induction l generalizing a with
  | nil => exact le_refl a
  | cons x xs ih =>
    calc a ≤ max a x := le_max_left a x
    _ ≤ listMax (max a x) xs := ih (max a x)

lemma mem_le_listMax (a x : ℚ) (l : List ℚ) (hx : x ∈ l) : x ≤ listMax a l := by
  induction l generalizing a with
  | nil => exact absurd hx (List.not_mem_nil x)
  | cons y ys ih =>
    rcases List.mem_cons.mp hx with h | h
    · subst h
      calc x ≤ max a x := le_max_right a x
      _ ≤ listMax (max a x) ys := le_listMax_init (max a x) ys
    · exact ih (max a y) h

lemma listMax_all_zero (l : List ℚ) (h : ∀ x ∈ l, x = 0) : listMax 0 l = 0 := by
  induction l with
  | nil => rfl
  | cons x xs ih =>
    have hx : x = 0 := h x (List.mem_cons_self x xs)
    have hxs : ∀ y ∈ xs, y = 0 := fun y hy => h y (List.mem_cons_of_mem x hy)
    rw [listMax, List.foldl_cons, hx, max_self]
    exact ih hxs

/-- Along a non-decreasing wealth curve the high-water mark always
equals the current wealth, so every drawdown entry is 0. -/
lemma ddAux_all_zero (ws : List ℚ) :
    ∀ hwm : ℚ, List.Chain' (· ≤ ·) (hwm :: ws) →
      ∀ d ∈ ddAux hwm 0 ws, d = 0 := by
  induction ws with
  | nil =>
    intro hwm _ d hd
    exact absurd hd (List.not_mem_nil d)
  | cons w ws' ih =>
    intro hwm hch d hd
    have h1 : hwm ≤ w := (List.chain'_cons.mp hch).1
    have h2 : List.Chain' (· ≤ ·) (w :: ws') := (List.chain'_cons.mp hch).2
    have hh : (if w ≤ hwm then hwm else w) = w := by
      split_ifs with h
      · exact le_antisymm h1 h
      · rfl
    have hdd : (if |1 + w| < EPS then (0 : ℚ)
        else (1 + (if w ≤ hwm then hwm else w)) / (1 + w) - 1) = 0 := by
      rw [hh]
      by_cases he : |1 + w| < EPS
      · rw [if_pos he]
      · rw [if_neg he]
        have hne : (1 : ℚ) + w ≠ 0 := by
          intro h0
          rw [h0] at he
          exact he (by norm_num [EPS])
        rw [div_self hne]
        norm_num
    rw [ddAux, hh] at hd
    rw [hh] at hdd
    rw [hdd] at hd
    rcases List.mem_cons.mp hd with h | h
    · exact h
    · exact ih w h2 d h

lemma calcDrawdowns_nil (ret : List ℚ) (hcc : cumRet ret = []) :
    calcDrawdowns ret = 0 := by
  unfold calcDrawdowns
  rw [hcc]
  rfl

lemma calcDrawdowns_cons (ret : List ℚ) (w : ℚ) (tail : List ℚ)
    (hcc : cumRet ret = w :: tail) :
    calcDrawdowns ret = listMax 0 (ddAux w 0 tail) := by
  unfold calcDrawdowns
  rw [hcc]
  have hdl : ddList (w :: tail) = 0 :: ddAux w 0 tail := by
    rw [ddList]
    exact ddAux_head_zero w tail
  rw [hdl]

/-- C3 (confirmed): for every non-empty return series,
`calc_drawdowns(ret) >= 0`; and when the cumulative wealth
`W_t = prod(1 + ret_i) - 1` is monotonically non-decreasing,
`calc_drawdowns(ret)` is exactly 0. -/
theorem calcDrawdowns_nonneg_and_mono_zero (ret : List ℚ) (_h : ret ≠ []) :
    0 ≤ calcDrawdowns ret ∧
      (List.Chain' (· ≤ ·) (cumRet ret) → calcDrawdowns ret = 0) := by
  rcases hcc : cumRet ret with _ | ⟨w, tail⟩
  · rw [calcDrawdowns_nil ret hcc]
    exact ⟨le_refl 0, fun _ => rfl⟩
  · rw [calcDrawdowns_cons ret w tail hcc]
    constructor
    · exact le_listMax_init 0 (ddAux w 0 tail)
    · intro hch
      exact listMax_all_zero (ddAux w 0 tail) (ddAux_all_zero tail w hch)

/-- Witness for C3 at a concrete input. -/
theorem calcDrawdowns_nonneg_and_mono_zero_witness :
    ([1 / 10, 1 / 5] : List ℚ) ≠ [] ∧
      (0 ≤ calcDrawdowns [1 / 10, 1 / 5] ∧
        (List.Chain' (· ≤ ·) (cumRet [1 / 10, 1 / 5]) →
          calcDrawdowns [1 / 10, 1 / 5] = 0)) :=
  ⟨by simp, calcDrawdowns_nonneg_and_mono_zero [1 / 10, 1 / 5] (by simp)⟩

lemma durAux_eq_spec (ds : List ℚ) :
    ∀ prev : ℚ, (∀ d ∈ ds, 0 ≤ d) → durAux prev ds = durSpecAux prev ds := by
  induction ds with
  | nil =>
    intro prev _
    rfl
  | cons d ds' ih =>
    intro prev h
    have hd : 0 ≤ d := h d (List.mem_cons_self d ds')
    have hds : ∀ x ∈ ds', 0 ≤ x := fun x hx => h x (List.mem_cons_of_mem d hx)
    rw [durAux, durSpecAux]
    have hcur : (if d = 0 then (0 : ℚ) else prev + 1) =
        (if 0 < d then prev + 1 else 0) := by
      rcases eq_or_lt_of_le hd with he | hlt
      · rw [if_pos he.symm, if_neg (by rw [← he]; exact lt_irrefl 0)]
      · rw [if_neg (ne_of_gt hlt), if_pos hlt]
    rw [hcur, ih (if 0 < d then prev + 1 else 0) hds]

lemma durAux_all_zero (ds : List ℚ) :
    ∀ prev : ℚ, (∀ d ∈ ds, d = 0) → ∀ x ∈ durAux prev ds, x = 0 := by
  induction ds with
  | nil =>
    intro prev _ x hx
    exact absurd hx (List.not_mem_nil x)
  | cons d ds' ih =>
    intro prev h x hx
    have hd : d = 0 := h d (List.mem_cons_self d ds')
    have hds : ∀ y ∈ ds', y = 0 := fun y hy => h y (List.mem_cons_of_mem d hy)
    rw [durAux, if_pos hd] at hx
    rcases List.mem_cons.mp hx with h' | h'
    · exact h'
    · exact ih 0 hds x h'

lemma intTrunc_zero : intTrunc 0 = 0 := by
  simpa using intTrunc_intCast 0

/-- C4 (corrected): provided no per-bar drawdown entry is negative
(which can only fail when wealth crosses -100%), `calc_durations` is 0
whenever `calc_drawdowns` is 0, and `calc_durations` equals the
truncation to an integer of the spec's longest-run value — the code's
counter increments when `D_t ≠ 0` (not only when `D_t > 0`) and the
result passes through `int(...)`. -/
theorem calcDurations_amended (ret : List ℚ) (tf : ℚ) (_hne : ret ≠ [])
    (_htf : 0 < tf) (hdd : ∀ d ∈ ddList (cumRet ret), 0 ≤ d) :
    (calcDrawdowns ret = 0 → calcDurations ret tf = 0) ∧
      calcDurations ret tf = intTrunc (calcDurationsSpec ret tf) := by
  rcases hcc : cumRet ret with _ | ⟨w, tail⟩
  · have h1 : calcDurations ret tf = 0 := by
      unfold calcDurations
      rw [hcc]
      rfl
    have h2 : calcDurationsSpec ret tf = 0 := by
      unfold calcDurationsSpec
      rw [hcc]
      rfl
    rw [h1, h2, intTrunc_zero]
    exact ⟨fun _ => rfl, rfl⟩
  · have hdl : ddList (w :: tail) = 0 :: ddAux w 0 tail := by
      rw [ddList]
      exact ddAux_head_zero w tail
    have hddrest : ∀ d ∈ ddAux w 0 tail, 0 ≤ d := by
      intro d hd
      apply hdd
      rw [hcc, hdl]
      exact List.mem_cons_of_mem 0 hd
    have hcode : calcDurations ret tf =
        intTrunc (listMax 0 (durAux 0 (ddAux w 0 tail)) / (1440 / tf)) := by
      unfold calcDurations
      rw [hcc, hdl]
      rfl
    have hspec : calcDurationsSpec ret tf =
        listMax 0 (durSpecAux 0 (ddAux w 0 tail)) / (1440 / tf) := by
      unfold calcDurationsSpec
      rw [hcc, hdl]
      rw [durSpecAux]
      rw [if_neg (lt_irrefl (0 : ℚ))]
    constructor
    · intro hzero
      rw [calcDrawdowns_cons ret w tail hcc] at hzero
      have hall : ∀ d ∈ ddAux w 0 tail, d = 0 := by
        intro d hd
        have hle := mem_le_listMax 0 d (ddAux w 0 tail) hd
        rw [hzero] at hle
        exact le_antisymm hle (hddrest d hd)
      have hdur := durAux_all_zero (ddAux w 0 tail) 0 hall
      rw [hcode, listMax_all_zero (durAux 0 (ddAux w 0 tail)) hdur, zero_div,
        intTrunc_zero]
    · rw [hcode, hspec, durAux_eq_spec (ddAux w 0 tail) 0 hddrest]

lemma ddList_cum_single : ddList (cumRet [(0 : ℚ)]) = [0] := by
  norm_num [cumRet, cumProdAux, ddList, ddAux, EPS, abs_one]

/-- Witness for C4's amended theorem at a concrete input. -/
theorem calcDurations_amended_witness :
    ([0] : List ℚ) ≠ [] ∧ (0 : ℚ) < 60 ∧
      (∀ d ∈ ddList (cumRet [(0 : ℚ)]), 0 ≤ d) ∧
      ((calcDrawdowns [0] = 0 → calcDurations [0] 60 = 0) ∧
        calcDurations [0] 60 = intTrunc (calcDurationsSpec [0] 60)) := by
  have hdd : ∀ d ∈ ddList (cumRet [(0 : ℚ)]), 0 ≤ d := by
    rw [ddList_cum_single]
    intro d hd
    rcases List.mem_cons.mp hd with h | h
    · rw [h]
    · exact absurd h (List.not_mem_nil d)
  exact ⟨by simp, by norm_num, hdd,
    calcDurations_amended [0] 60 (by simp) (by norm_num) hdd⟩

/-- Counterexample to C4 as stated: for `ret = [0, -3]` (wealth crosses
-100% at the second bar, giving a negative drawdown entry `-3/2`),
`calc_drawdowns = 0` but `calc_durations = 1` with `timeframe = 1440`:
the code's counter increments on `D_t ≠ 0`, not only on `D_t > 0`. -/
theorem calcDurations_claim_counterexample :
    ¬ ((calcDrawdowns [0, -3] = 0 → calcDurations [0, -3] 1440 = 0) ∧
        (calcDurations [0, -3] 1440 : ℚ) = calcDurationsSpec [0, -3] 1440) := by
  have hc1 : cumRet [0, -3] = [0, -3] := by
    norm_num [cumRet, cumProdAux]
  have hd1 : ddList [(0 : ℚ), -3] = [0, -3 / 2] := by
    norm_num [ddList, ddAux, EPS, abs_one]
  have hdraw : calcDrawdowns [0, -3] = 0 := by
    unfold calcDrawdowns
    rw [hc1, hd1]
    norm_num [listMax]
  have hdur : calcDurations [0, -3] 1440 = 1 := by
    unfold calcDurations
    rw [hc1, hd1]
    norm_num [durList, durAux, listMax, intTrunc]
  rintro ⟨h, -⟩
  have h2 := h hdraw
  rw [hdur] at h2
  exact absurd h2 one_ne_zero

/-- The fitness of `calc_performance` with `optimization == 1`
(forex_system.py lines 122-132): sharpe if `trades / years >= min_trade`,
else 0.  `sharpeOf` and `tradesOf` stand for the values computed by the
signal → return → trade-count → sharpe pipeline on the given window. -/
def fitness {α : Type} (sharpeOf tradesOf : α → ℚ) (years minTrade : ℚ)
    (p : α) : ℚ :=
  if minTrade ≤ tradesOf p / years then sharpeOf p else 0

/-- `calc_performance(parameter, ..., optimization=1, ...)` returns
`-fitness` (line 132). -/
def calcPerformanceOpt {α : Type} (sharpeOf tradesOf : α → ℚ)
    (years minTrade : ℚ) (p : α) : ℚ :=
  -(fitness sharpeOf tradesOf years minTrade p)

/-- Running first-minimizer over a list, seeded with `b`: a later point
replaces the incumbent only when strictly smaller. -/
def goMin {α : Type} (f : α → ℚ) (b : α) (l : List α) : α :=
  l.foldl (fun b x => if f x < f b then x else b) b

/-- First element of `l` attaining the minimum of `f` (ties keep the
earlier element). -/
def argminFirst {α : Type} (f : α → ℚ) (l : List α) : Option α :=
  match l with
  | [] => none
  | x :: xs => some (goMin f x xs)

/-- Modelled from the spec: `scipy.optimize.brute` with `finish=None`
(line 145-148) evaluates the objective at every grid point in
enumeration order and returns the grid point with the minimal objective
value; `np.argmin` breaks ties by the first index in enumeration
order.  (`scipy` is an external library, not part of src/.) -/
def brute {α : Type} (grid : List α) (f : α → ℚ) : Option α :=
  argminFirst f grid

lemma goMin_spec {α : Type} (f : α → ℚ) :
    ∀ (l : List α) (b : α),
      ((∀ p ∈ l, f (goMin f b l) ≤ f p) ∧ f (goMin f b l) ≤ f b) ∧
        (goMin f b l = b ∨
          ∃ pre r suf, l = pre ++ r :: suf ∧ goMin f b l = r ∧ f r < f b ∧
            ∀ p ∈ pre, f r < f p) := by
  intro l
  induction l with
  | nil =>
    intro b
    exact ⟨⟨fun p hp => absurd hp (List.not_mem_nil p), le_refl _⟩, Or.inl rfl⟩
  | cons x xs ih =>
    intro b
    have hstep : goMin f b (x :: xs) =
        goMin f (if f x < f b then x else b) xs := rfl
    by_cases hx : f x < f b
    · rw [if_pos hx] at hstep
      obtain ⟨⟨hmin, hle⟩, hfirst⟩ := ih x
      constructor
      · constructor
        · intro p hp
          rcases List.mem_cons.mp hp with h | h
          · subst h
            rw [hstep]
            exact hle
          · rw [hstep]
            exact hmin p h
        · rw [hstep]
          exact le_of_lt (lt_of_le_of_lt hle hx)
      · right
        rcases hfirst with h | ⟨pre, r, suf, heq, hg, hlt, hpre⟩
        · refine ⟨[], x, xs, rfl, by rw [hstep, h], ?_, ?_⟩
          · exact hx
          · intro p hp
            exact absurd hp (List.not_mem_nil p)
        · refine ⟨x :: pre, r, suf, by rw [heq]; rfl, by rw [hstep, hg],
            lt_trans hlt hx, ?_⟩
          intro p hp
          rcases List.mem_cons.mp hp with h | h
          · subst h
            exact hlt
          · exact hpre p h
    · rw [if_neg hx] at hstep
      obtain ⟨⟨hmin, hle⟩, hfirst⟩ := ih b
      constructor
      · constructor
        · intro p hp
          rcases List.mem_cons.mp hp with h | h
          · subst h
            rw [hstep]
            exact le_trans hle (not_lt.mp hx)
          · rw [hstep]
            exact hmin p h
        · rw [hstep]
          exact hle
      · rcases hfirst with h | ⟨pre, r, suf, heq, hg, hlt, hpre⟩
        · left
          rw [hstep, h]
        · right
          refine ⟨x :: pre, r, suf, by rw [heq]; rfl, by rw [hstep, hg], hlt,
            ?_⟩
          intro p hp
          rcases List.mem_cons.mp hp with h | h
          · subst h
            exact lt_of_lt_of_le hlt (not_lt.mp hx)
          · exact hpre p h

/-- C5 (confirmed): during an optimizing backtest, the objective equals
`-sharpe` when `trades / years >= min_trade` and 0 otherwise; the
brute-force search therefore returns a grid point maximizing the
fitness (sharpe subject to the trade-frequency floor), and every grid
point enumerated before the returned one has strictly smaller fitness
(i.e. the first point attaining the maximum is returned). -/
theorem brute_maximizes_sharpe {α : Type} (grid : List α)
    (sharpeOf tradesOf : α → ℚ) (years minTrade : ℚ) (hne : grid ≠ []) :
    (∀ p : α, calcPerformanceOpt sharpeOf tradesOf years minTrade p =
        if minTrade ≤ tradesOf p / years then -(sharpeOf p) else 0) ∧
      ∃ pre r suf, grid = pre ++ r :: suf ∧
        brute grid (calcPerformanceOpt sharpeOf tradesOf years minTrade) =
          some r ∧
        (∀ p ∈ grid, fitness sharpeOf tradesOf years minTrade p ≤
          fitness sharpeOf tradesOf years minTrade r) ∧
        (∀ p ∈ pre, fitness sharpeOf tradesOf years minTrade p <
          fitness sharpeOf tradesOf years minTrade r) := by
  constructor
  · intro p
    unfold calcPerformanceOpt fitness
    split_ifs with h
    · rfl
    · exact neg_zero
  · match grid, hne with
    | x :: xs, _ =>
      set f := calcPerformanceOpt sharpeOf tradesOf years minTrade with hf
      obtain ⟨⟨hmin, hle⟩, hfirst⟩ := goMin_spec f xs x
      have hbr : brute (x :: xs) f = some (goMin f x xs) := rfl
      have hobj : ∀ p : α, f p =
          -(fitness sharpeOf tradesOf years minTrade p) := fun p => rfl
      rcases hfirst with h | ⟨pre, r, suf, heq, hg, hlt, hpre⟩
      · refine ⟨[], x, xs, rfl, by rw [hbr, h], ?_, ?_⟩
        · intro p hp
          rcases List.mem_cons.mp hp with h' | h'
          · subst h'
            exact le_refl _
          · have := hmin p h'
            rw [h, hobj, hobj] at this
            exact neg_le_neg_iff.mp this
        · intro p hp
          exact absurd hp (List.not_mem_nil p)
      · refine ⟨x :: pre, r, suf, by rw [heq]; rfl, by rw [hbr, hg], ?_, ?_⟩
        · intro p hp
          rcases List.mem_cons.mp hp with h' | h'
          · subst h'
            have := hlt
            rw [hobj, hobj] at this
            exact le_of_lt (neg_lt_neg_iff.mp this)
          · have := hmin p h'
            rw [hg, hobj, hobj] at this
            exact neg_le_neg_iff.mp this
        · intro p hp
          rcases List.mem_cons.mp hp with h' | h'
          · subst h'
            have := hlt
            rw [hobj, hobj] at this
            exact neg_lt_neg_iff.mp this
          · have := hpre p h'
            rw [hobj, hobj] at this
            exact neg_lt_neg_iff.mp this

/-- Witness for C5 at a concrete input (grid of three candidates). -/
theorem brute_maximizes_sharpe_witness :
    ([0, 5, 10] : List ℚ) ≠ [] ∧
      ((∀ p : ℚ, calcPerformanceOpt id id 1 0 p =
          if (0 : ℚ) ≤ id p / 1 then -(id p) else 0) ∧
        ∃ pre r suf, ([0, 5, 10] : List ℚ) = pre ++ r :: suf ∧
          brute [0, 5, 10] (calcPerformanceOpt id id 1 0) = some r ∧
          (∀ p ∈ ([0, 5, 10] : List ℚ), fitness id id 1 0 p ≤
            fitness id id 1 0 r) ∧
          (∀ p ∈ pre, fitness id id 1 0 p < fitness id id 1 0 r)) :=
  ⟨by simp, brute_maximizes_sharpe [0, 5, 10] id id 1 0 (by simp)⟩

/-
Walk-forward windowing (forex_system.py lines 1858-1879).  Time is
embedded as minutes (ℤ): `timedelta(days=d)` is `d * 1440` minutes and
one bar is `timeframe` minutes.  `oos` and `ins` are
`out_of_sample_period` and `in_sample_period` in days.
-/

/-- `start_train` (lines 1862 / 1869). -/
def trainStart (fixed : Bool) (start oos ins tf : ℤ) (i : ℕ) : ℤ :=
  if fixed then start + oos * 1440 * i else start

/-- `end_train` (lines 1863-1864 / 1870-1873). -/
def trainEnd (fixed : Bool) (start oos ins tf : ℤ) (i : ℕ) : ℤ :=
  if fixed then trainStart fixed start oos ins tf i + ins * 1440 - tf
  else start + oos * 1440 * i + ins * 1440 - tf

/-- `start_test = end_train + timedelta(minutes=timeframe)` (lines 1865 / 1874). -/
def testStart (fixed : Bool) (start oos ins tf : ℤ) (i : ℕ) : ℤ :=
  trainEnd fixed start oos ins tf i + tf

/-- `end_test = start_test + timedelta(days=oos) - timedelta(minutes=timeframe)`
(lines 1866-1867 / 1875-1876). -/
def testEnd (fixed : Bool) (start oos ins tf : ℤ) (i : ℕ) : ℤ :=
  testStart fixed start oos ins tf i + oos * 1440 - tf

/-- In both modes the test window start has the same closed form. -/
lemma testStart_eq (fixed : Bool) (start oos ins tf : ℤ) (i : ℕ) :
    testStart fixed start oos ins tf i =
      start + oos * 1440 * (i : ℤ) + ins * 1440 := by
  unfold testStart trainEnd trainStart
  cases fixed <;> simp <;> ring

lemma testEnd_eq (fixed : Bool) (start oos ins tf : ℤ) (i : ℕ) :
    testEnd fixed start oos ins tf i =
      start + oos * 1440 * (i : ℤ) + ins * 1440 + oos * 1440 - tf := by
  rw [testEnd, testStart_eq]

/-- C6 (confirmed): for both fixed and expanding windows, with a
positive bar length and an out-of-sample period of at least one bar:
`test_start_i = train_end_i + 1 bar`,
`test_end_i = test_start_i + out_of_sample_period - 1 bar`, the
produced iterations form an initial segment (test_end is monotone in
`i`, so the loop's break at `test_end > end` stops at the first such
`i`), `test_start_i ≤ test_end_i < test_start_{i+1}`, and no test
window starts before its train window ends. -/
theorem walk_forward_window_invariants (fixed : Bool)
    (start oos ins tf endg : ℤ) (htf : 0 < tf) (hoos : tf ≤ oos * 1440) :
    (∀ i : ℕ, testStart fixed start oos ins tf i =
        trainEnd fixed start oos ins tf i + tf) ∧
      (∀ i : ℕ, testEnd fixed start oos ins tf i =
        testStart fixed start oos ins tf i + oos * 1440 - tf) ∧
      (∀ i j : ℕ, i ≤ j → testEnd fixed start oos ins tf j ≤ endg →
        testEnd fixed start oos ins tf i ≤ endg) ∧
      (∀ i : ℕ, testStart fixed start oos ins tf i ≤
        testEnd fixed start oos ins tf i) ∧
      (∀ i : ℕ, testEnd fixed start oos ins tf i <
        testStart fixed start oos ins tf (i + 1)) ∧
      (∀ i : ℕ, trainEnd fixed start oos ins tf i <
        testStart fixed start oos ins tf i) := by
  have hmono : ∀ i j : ℕ, i ≤ j → testEnd fixed start oos ins tf i ≤
      testEnd fixed start oos ins tf j := by
    intro i j hij
    rw [testEnd_eq, testEnd_eq]
    have hez : (0 : ℤ) < oos * 1440 := lt_of_lt_of_le htf hoos
    have hcast : (i : ℤ) ≤ (j : ℤ) := by exact_mod_cast hij
    have := mul_le_mul_of_nonneg_left hcast (le_of_lt hez)
    linarith
  refine ⟨fun i => rfl, fun i => rfl, ?_, ?_, ?_, ?_⟩
  · intro i j hij hje
    exact le_trans (hmono i j hij) hje
  · intro i
    rw [testEnd]
    linarith
  · intro i
    rw [testEnd_eq, testStart_eq]
    push_cast
    linarith
  · intro i
    rw [testStart]
    linarith

/-- Witness for C6 at a concrete input (fixed window, 10-day in-sample,
5-day out-of-sample, 60-minute bars, 20-day span). -/
theorem walk_forward_window_invariants_witness :
    (0 : ℤ) < 60 ∧ (60 : ℤ) ≤ 5 * 1440 ∧
      ((∀ i : ℕ, testStart true 0 5 10 60 i = trainEnd true 0 5 10 60 i + 60) ∧
        (∀ i : ℕ, testEnd true 0 5 10 60 i =
          testStart true 0 5 10 60 i + 5 * 1440 - 60) ∧
        (∀ i j : ℕ, i ≤ j → testEnd true 0 5 10 60 j ≤ 28800 →
          testEnd true 0 5 10 60 i ≤ 28800) ∧
        (∀ i : ℕ, testStart true 0 5 10 60 i ≤ testEnd true 0 5 10 60 i) ∧
        (∀ i : ℕ, testEnd true 0 5 10 60 i <
          testStart true 0 5 10 60 (i + 1)) ∧
        (∀ i : ℕ, trainEnd true 0 5 10 60 i < testStart true 0 5 10 60 i)) :=
  ⟨by norm_num, by norm_num,
    walk_forward_window_invariants true 0 5 10 60 28800 (by norm_num)
      (by norm_num)⟩

/-- A stored cache artifact on disk: either a well-formed pickle of a
value, or a corrupt/partial file. -/
inductive Artifact (α : Type) where
  | good : α → Artifact α
  | corrupt : Artifact α
deriving DecidableEq

/-- `joblib.load`: returns the stored value for a well-formed artifact
and raises an exception on a corrupt one. -/
def loadArtifact {α : Type} : Artifact α → Except Unit α
  | Artifact.good v => Except.ok v
  | Artifact.corrupt => Except.error ()

/-- The backtest cache path of `ForexSystem.i_close` (lines 773-787; the
same shape appears in `i_bandwalk`, lines 704-754): when a file exists
under the cache key it is loaded unconditionally — there is no
try/except around `joblib.load` — and only a missing file leads to
recomputation (followed by a store). -/
def iCloseCached {α : Type} (stored : Option (Artifact α)) (compute : α) :
    Except Unit α :=
  match stored with
  | some a => loadArtifact a
  | none => Except.ok compute

/-- Counterexample to C7 as stated: a corrupt artifact under the cache
key is not treated as a miss; `joblib.load` raises and the error
propagates instead of the value being recomputed. -/
theorem cache_corruption_counterexample :
    iCloseCached (some Artifact.corrupt) (0 : ℤ) ≠ Except.ok 0 :=
  fun h => Except.noConfusion h

/-- C7 (corrected): a corrupt stored artifact is fatal (the load
failure propagates); only a missing artifact is a cache miss and
recomputed, and a well-formed artifact is returned as stored. -/
theorem cache_corruption_fatal {α : Type} (compute : α) :
    iCloseCached (some (Artifact.corrupt : Artifact α)) compute =
        Except.error () ∧
      iCloseCached (none : Option (Artifact α)) compute = Except.ok compute ∧
      ∀ v : α, iCloseCached (some (Artifact.good v)) compute = Except.ok v :=
  ⟨rfl, rfl, fun v => rfl⟩

/-- Order actions emitted by one pass of the live loop's order
management. -/
inductive TradeAction where
  | closePos : TradeAction
  | openBuy : TradeAction
  | openSell : TradeAction
deriving DecidableEq

/-- The position after the close blocks of `ForexSystem.trade`
(lines 1648-1693): a long is closed when the signal is no longer 1, a
short when it is no longer -1; `pos` is reset to 0. -/
def posAfterCloses (pos sig : ℤ) : ℤ :=
  if pos = 1 ∧ sig ≠ 1 then 0 else if pos = -1 ∧ sig ≠ -1 then 0 else pos

/-- The close orders emitted by the close blocks (evaluated first). -/
def closeActions (pos sig : ℤ) : List TradeAction :=
  if pos = 1 ∧ sig ≠ 1 then [TradeAction.closePos]
  else if pos = -1 ∧ sig ≠ -1 then [TradeAction.closePos]
  else []

/-- One order-management pass of `ForexSystem.trade` on a newly
completed bar (lines 1646-1722): the close blocks run first, then a new
order is sent only when `pos == 0 and ask - bid <= spread` and the
latest signal is 1 or -1.  Returns the new position and the emitted
actions in order. -/
def tradeStep (pos sig : ℤ) (bid ask spread : ℚ) : ℤ × List TradeAction :=
  if posAfterCloses pos sig = 0 ∧ ask - bid ≤ spread then
    if sig = 1 then (1, closeActions pos sig ++ [TradeAction.openBuy])
    else if sig = -1 then (-1, closeActions pos sig ++ [TradeAction.openSell])
    else (posAfterCloses pos sig, closeActions pos sig)
  else (posAfterCloses pos sig, closeActions pos sig)

lemma closeActions_mem (pos sig : ℤ) (a : TradeAction)
    (ha : a ∈ closeActions pos sig) : a = TradeAction.closePos := by
  unfold closeActions at ha
  split_ifs at ha with h1 h2
  · exact List.mem_singleton.mp ha
  · exact List.mem_singleton.mp ha
  · exact absurd ha (List.not_mem_nil a)

lemma closePos_mem_closeActions (pos sig : ℤ) :
    TradeAction.closePos ∈ closeActions pos sig ↔
      (pos = 1 ∧ sig ≠ 1) ∨ (pos = -1 ∧ sig ≠ -1) := by
  unfold closeActions
  split_ifs with h1 h2
  · simp [h1]
  · simp [h2]
  · simp [h1, h2]

/-- C8 (confirmed): in each live-loop iteration that processes a newly
completed bar, closes are evaluated strictly before opens (the emitted
action list is the close actions followed by open actions); a position
is opened only when the position is flat after the closes, the latest
signal is +1 or -1, and `ask - bid ≤ allowed spread`; and whether a
close is emitted depends only on the position and the signal, not on
the current spread. -/
theorem trade_closes_before_opens (pos sig : ℤ) (bid ask spread : ℚ) :
    (∃ opens : List TradeAction,
        (tradeStep pos sig bid ask spread).2 = closeActions pos sig ++ opens ∧
        (∀ a ∈ closeActions pos sig, a = TradeAction.closePos) ∧
        (∀ a ∈ opens, a = TradeAction.openBuy ∨ a = TradeAction.openSell)) ∧
      ((TradeAction.openBuy ∈ (tradeStep pos sig bid ask spread).2 ∨
          TradeAction.openSell ∈ (tradeStep pos sig bid ask spread).2) →
        posAfterCloses pos sig = 0 ∧ (sig = 1 ∨ sig = -1) ∧
          ask - bid ≤ spread) ∧
      (TradeAction.closePos ∈ (tradeStep pos sig bid ask spread).2 ↔
        (pos = 1 ∧ sig ≠ 1) ∨ (pos = -1 ∧ sig ≠ -1)) := by
  unfold tradeStep
  split_ifs with h1 h2 h3
  · refine ⟨⟨[TradeAction.openBuy], rfl, closeActions_mem pos sig, ?_⟩, ?_, ?_⟩
    · intro a ha
      left
      exact List.mem_singleton.mp ha
    · intro _
      exact ⟨h1.1, Or.inl h2, h1.2⟩
    · simp only [List.mem_append, List.mem_singleton]
      rw [closePos_mem_closeActions]
      simp
  · refine ⟨⟨[TradeAction.openSell], rfl, closeActions_mem pos sig, ?_⟩, ?_, ?_⟩
    · intro a ha
      right
      exact List.mem_singleton.mp ha
    · intro _
      exact ⟨h1.1, Or.inr h3, h1.2⟩
    · simp only [List.mem_append, List.mem_singleton]
      rw [closePos_mem_closeActions]
      simp
  · refine ⟨⟨[], (List.append_nil _).symm, closeActions_mem pos sig, ?_⟩,
      ?_, ?_⟩
    · intro a ha
      exact absurd ha (List.not_mem_nil a)
    · intro hmem
      rcases hmem with h | h
      · have := closeActions_mem pos sig _ h
        exact absurd this (by simp)
      · have := closeActions_mem pos sig _ h
        exact absurd this (by simp)
    · exact closePos_mem_closeActions pos sig
  · refine ⟨⟨[], (List.append_nil _).symm, closeActions_mem pos sig, ?_⟩,
      ?_, ?_⟩
    · intro a ha
      exact absurd ha (List.not_mem_nil a)
    · intro hmem
      rcases hmem with h | h
      · have := closeActions_mem pos sig _ h
        exact absurd this (by simp)
      · have := closeActions_mem pos sig _ h
        exact absurd this (by simp)
    · exact closePos_mem_closeActions pos sig

/-- One iteration of the aggregate-variable assignments of
`walk_forward_test` (lines 1903-1908): at `i = 0`, `signal_all` and
`start_all` are bound; for `i >= 1`, `signal_all` is extended and
`end_all` is bound.  `none` models a Python name that has not been
assigned (reading it raises UnboundLocalError).  `seg i` is the test
signal segment of iteration `i`. -/
def wfBindStep (seg : ℕ → List ℤ) (fixed : Bool) (start oos ins tf : ℤ)
    (st : Option (List ℤ) × Option ℤ × Option ℤ) (i : ℕ) :
    Option (List ℤ) × Option ℤ × Option ℤ :=
  if i = 0 then
    (some (seg 0), some (testStart fixed start oos ins tf 0), st.2.2)
  else
    (st.1.map (fun s => s ++ seg i), st.2.1,
      some (testEnd fixed start oos ins tf i))

/-- The `(signal_all, start_all, end_all)` bindings after `k` loop
iterations of `walk_forward_test`. -/
def wfBindings (seg : ℕ → List ℤ) (fixed : Bool) (start oos ins tf : ℤ)
    (k : ℕ) : Option (List ℤ) × Option ℤ × Option ℤ :=
  (List.range k).foldl (wfBindStep seg fixed start oos ins tf)
    (none, none, none)

lemma wfBindings_succ (seg : ℕ → List ℤ) (fixed : Bool)
    (start oos ins tf : ℤ) (k : ℕ) :
    wfBindings seg fixed start oos ins tf (k + 1) =
      wfBindStep seg fixed start oos ins tf
        (wfBindings seg fixed start oos ins tf k) k := by
  unfold wfBindings
  rw [List.range_succ, List.foldl_append, List.foldl_cons, List.foldl_nil]

lemma wfBindings_isSome (seg : ℕ → List ℤ) (fixed : Bool)
    (start oos ins tf : ℤ) :
    ∀ k : ℕ,
      ((wfBindings seg fixed start oos ins tf k).1.isSome = decide (1 ≤ k)) ∧
        ((wfBindings seg fixed start oos ins tf k).2.1.isSome =
          decide (1 ≤ k)) ∧
        ((wfBindings seg fixed start oos ins tf k).2.2.isSome =
          decide (2 ≤ k)) := by
  intro k
  induction k with
  | zero => exact ⟨rfl, rfl, rfl⟩
  | succ k ih =>
    obtain ⟨ih1, ih2, ih3⟩ := ih
    rw [wfBindings_succ]
    rcases Nat.eq_zero_or_pos k with h0 | hpos
    · subst h0
      unfold wfBindStep
      simp
      rfl
    · have hk : k ≠ 0 := Nat.pos_iff_ne_zero.mp hpos
      unfold wfBindStep
      rw [if_neg hk]
      refine ⟨?_, ?_, ?_⟩
      · have h1t : (wfBindings seg fixed start oos ins tf k).1.isSome =
            true := by
          rw [ih1]
          exact decide_eq_true (show 1 ≤ k from hpos)
        obtain ⟨s, hs⟩ := Option.isSome_iff_exists.mp h1t
        rw [hs]
        show (some (s ++ seg k)).isSome = decide (1 ≤ k + 1)
        rw [Option.isSome_some, decide_eq_true (show 1 ≤ k + 1 by omega)]
      · show (wfBindings seg fixed start oos ins tf k).2.1.isSome = _
        rw [ih2, decide_eq_true (show 1 ≤ k from hpos),
          decide_eq_true (show 1 ≤ k + 1 by omega)]
      · show (some (testEnd fixed start oos ins tf k)).isSome = _
        rw [Option.isSome_some, decide_eq_true (show 2 ≤ k + 1 by omega)]

/-- C9 (confirmed): the aggregate step of `walk_forward_test` reads
`signal_all`, `start_all` and `end_all`; all three are bound exactly
when at least two loop iterations ran (at least two test windows fit),
since `end_all` is assigned only from the second iteration onward and
`signal_all` / `start_all` only from the first — with zero or one
windows the aggregate step reads an unbound variable and fails. -/
theorem walk_forward_aggregate_needs_two_windows (seg : ℕ → List ℤ)
    (fixed : Bool) (start oos ins tf : ℤ) (k : ℕ) :
    ((wfBindings seg fixed start oos ins tf k).1.isSome ∧
        (wfBindings seg fixed start oos ins tf k).2.1.isSome ∧
        (wfBindings seg fixed start oos ins tf k).2.2.isSome) ↔ 2 ≤ k := by
  obtain ⟨h1, h2, h3⟩ := wfBindings_isSome seg fixed start oos ins tf k
  rw [h1, h2, h3]
  constructor
  · rintro ⟨-, -, hc⟩
    exact of_decide_eq_true hc
  · intro hk
    have h1k : 1 ≤ k := le_trans (by norm_num) hk
    exact ⟨decide_eq_true h1k, decide_eq_true h1k, decide_eq_true hk⟩

lemma fdiv_none_right (a : Option ℚ) : fdiv a none = none := by
  cases a <;> rfl

/-- `ret.mean()`: NaN on an empty series. -/
def seriesMean (l : List ℚ) : Option ℚ :=
  if l.length = 0 then none else some (l.sum / l.length)

/-- The sample variance behind `ret.std()` (pandas default `ddof=1`):
`sum((x - mean)^2) / (n - 1)`, NaN when fewer than two observations. -/
def sampleVar (l : List ℚ) : Option ℚ :=
  if l.length ≤ 1 then none
  else some ((l.map (fun x => (x - l.sum / l.length) ^ 2)).sum /
    ((l.length : ℚ) - 1))

/-- `ret.std()`: the square root of the sample variance; `sq` abstracts
`np.sqrt` (whose exact value no claim depends on). -/
def seriesStd (sq : ℚ → ℚ) (l : List ℚ) : Option ℚ := (sampleVar l).map sq

/-- The guard `np.abs(std) < EPS` (lines 323 / 377): false when `std`
is NaN, as every IEEE-754 comparison against NaN. -/
def stdGuard (sq : ℚ → ℚ) (l : List ℚ) : Bool :=
  match seriesStd sq l with
  | none => false
  | some s => decide (|s| < EPS)

/-- `ForexSystem.calc_sharpe` (lines 360-382):
`sqrt(bars / years) * mean / std`, or 0 under the std-guard. -/
def calcSharpe (sq : ℚ → ℚ) (ret : List ℚ) (years : ℚ) : Option ℚ :=
  if stdGuard sq ret then some 0
  else fdiv (fmul (some (sq ((ret.length : ℚ) / years))) (seriesMean ret))
    (seriesStd sq ret)

/-- `ForexSystem.calc_kelly` (lines 311-328): `mean / (std * std)`, or 0
under the std-guard. -/
def calcKelly (sq : ℚ → ℚ) (ret : List ℚ) : Option ℚ :=
  if stdGuard sq ret then some 0
  else fdiv (seriesMean ret) (fmul (seriesStd sq ret) (seriesStd sq ret))

/-- C10 (confirmed): on a one-element return series the sample standard
deviation is NaN, the guard `|std| < 1e-5` is false for NaN, and the
division is performed anyway, so `calc_sharpe` and `calc_kelly` both
return NaN rather than 0 — for every sqrt implementation, element and
window length. -/
theorem sharpe_kelly_nan_on_singleton (sq : ℚ → ℚ) (x : ℚ) (years : ℚ) :
    sampleVar [x] = none ∧ stdGuard sq [x] = false ∧
      calcSharpe sq [x] years = none ∧ calcKelly sq [x] = none := by
  have hv : sampleVar [x] = none := by
    unfold sampleVar
    norm_num
  have hs : seriesStd sq [x] = none := by
    rw [seriesStd, hv]
    rfl
  have hg : stdGuard sq [x] = false := by
    rw [stdGuard, hs]
  refine ⟨hv, hg, ?_, ?_⟩
  · rw [calcSharpe, if_neg (by rw [hg]; exact Bool.false_ne_true), hs,
      fdiv_none_right]
  · rw [calcKelly, if_neg (by rw [hg]; exact Bool.false_ne_true), hs,
      fmul_none_left, fdiv_none_right]

end FS
